import Mathlib

/-!
Verification of the 7TV emote aggregation/ranking service (`src/main.py`).

The development shallowly embeds the request pipeline of `search_7tv_emotes`:
source fetching with per-source failure isolation, aggregation over a
comma-separated identifier list, difflib-based fuzzy ranking, result
truncation, best-variant selection and record normalization.

Modelling conventions:
- JSON fields that the code distinguishes between "key absent", "key present
  with value null" and "key present with a value" are embedded with `JField`;
  fields where the code treats absent and null identically are embedded with
  `Option` (with `none` standing for an absent key).
- File descriptors inside `host.files` carry a mandatory `name` string, per
  the catalog data model (a descriptor lacking `name` is not modelled).
- An emote's `name` is `Option String`: the code reads it with
  `e.get("name", "")` (scoring) and `e.get("name")` (output), so only the
  absent/present distinction is observable.
- Network calls are abstracted by a `FetchOutcome` oracle: either the request
  pipeline threw (network error, bad status, malformed JSON) or it produced a
  parsed list of raw entries.
- Uncaught Python exceptions are modelled by `Except PyErr`.
- Python floats arising from `difflib` ratios are modelled exactly as `ℚ`;
  Python's stable `sorted(..., reverse=True)` is modelled by `List.mergeSort`
  with a "greater-or-equal score" comparison, which is also stable.
-/

/-- A JSON object field as the Python code observes it: the key may be absent,
present with value `null`, or present with a value. -/
inductive JField (α : Type) where
  | absent
  | null
  | val (a : α)
deriving DecidableEq, Repr

/-- One entry of `host.files`: a file descriptor with (at least) a `name`
string, e.g. `"1x.avif"`, `"2x.gif"`. -/
structure FileEntry where
  name : String
deriving DecidableEq, Repr

/-- The `host` object of an emote record: a scheme-relative base `url` and an
ordered list of file descriptors. -/
structure HostInfo where
  url : Option String
  files : JField (List FileEntry)
deriving DecidableEq, Repr

/-- The `owner` object of an emote record. -/
structure OwnerInfo where
  username : Option String
deriving DecidableEq, Repr

/-- An emote record (the `data` payload of a raw catalog entry), as accessed
by `search_7tv_emotes`. -/
structure EmoteRecord where
  name : Option String
  host : JField HostInfo
  flags : Option Nat
  owner : JField OwnerInfo
deriving DecidableEq, Repr

/-- One output record of the endpoint: `{name, url, owner, is_overlay}`. -/
structure OutputRecord where
  name : Option String
  url : String
  owner : String
  is_overlay : Bool
deriving DecidableEq, Repr

/-- The endpoint response `{"results": [...]}`. -/
structure SearchResponse where
  results : List OutputRecord
deriving DecidableEq, Repr

/-- An uncaught Python exception escaping the request handler. -/
inductive PyErr where
  | attributeError
deriving DecidableEq, Repr

/-- Line 83: `host = emote.get("host") or {}` — an absent or null (or empty)
host collapses to an empty dict, whose lookups all miss. -/
def getHost (r : EmoteRecord) : HostInfo :=
  match r.host with
  | .val h => h
  | _ => { url := none, files := .absent }

/-- Line 84: `files = host.get("files") or []`. -/
def getFiles (h : HostInfo) : List FileEntry :=
  match h.files with
  | .val fs => fs
  | _ => []

/-- Python `s.endswith(suffix)`, computed on the character list. -/
def pyEndsWith (s suffix : String) : Bool :=
  decide (suffix.data.length ≤ s.data.length) &&
  decide (s.data.drop (s.data.length - suffix.data.length) = suffix.data)

/-- Lines 91-99: variant selection. Collect the names ending in `.gif` and in
`.webp`; prefer the last gif, then the last webp, then the last file name. -/
def selectFile (files : List FileEntry) : Option String :=
  let names := files.map FileEntry.name
  let gif_files := names.filter (fun n => pyEndsWith n ".gif")
  let webp_files := names.filter (fun n => pyEndsWith n ".webp")
  if gif_files ≠ [] then gif_files.getLast?
  else if webp_files ≠ [] then webp_files.getLast?
  else names.getLast?

/-- Line 108: `owner = emote.get("owner", {}).get("username", "unknown")`.
If the `owner` key is absent the default `{}` is used and the lookup yields
`"unknown"`; if the key is present with value `None`, `.get` is called on
`None` and an `AttributeError` is raised. -/
def resolveOwner (r : EmoteRecord) : Except PyErr String :=
  match r.owner with
  | .absent => .ok "unknown"
  | .null => .error .attributeError
  | .val o => .ok (o.username.getD "unknown")

/-- Python string interpolation of an optional string (`f"...{base}..."`
renders `None` as the text `None`). -/
def pyStrOpt : Option String → String
  | some s => s
  | none => "None"

/-- Lines 82-115, body of the result loop for a single record: `.ok none`
means the record is skipped, `.ok (some o)` means `o` is appended. -/
def normalizeRecord (r : EmoteRecord) : Except PyErr (Option OutputRecord) :=
  let host := getHost r
  let files := getFiles host
  if files = [] then .ok none
  else
    match selectFile files with
    | none => .ok none
    | some chosen =>
      let url := "https:" ++ pyStrOpt host.url ++ "/" ++ chosen
      let flags := r.flags.getD 0
      match resolveOwner r with
      | .error e => .error e
      | .ok ow =>
        .ok (some { name := r.name, url := url, owner := ow,
                    is_overlay := flags.land 256 != 0 })

/-- The result loop over all (ranked, truncated) records; the first raised
exception aborts the whole request. -/
def normalizeAll : List EmoteRecord → Except PyErr (List OutputRecord)
  | [] => .ok []
  | r :: rs =>
    match normalizeRecord r with
    | .error e => .error e
    | .ok none => normalizeAll rs
    | .ok (some o) =>
      match normalizeAll rs with
      | .error e => .error e
      | .ok os => .ok (o :: os)

/-- A raw catalog entry (an element of `emote_set.emotes` or `emotes`): only
its optional `data` payload is observed. -/
structure RawEmote where
  data : JField EmoteRecord
deriving DecidableEq, Repr

/-- Outcome of one catalog HTTP request: any exception along
request/status-check/JSON-decode collapses to `failure`; otherwise the parsed
entry list is produced. -/
inductive FetchOutcome where
  | failure
  | success (emotes : List RawEmote)
deriving DecidableEq, Repr

/-- Lines 22 and 35: `[e.get("data") for e in ... if e.get("data")]` — keep
only entries whose `data` payload is present (and non-null). -/
def extractEmotes (es : List RawEmote) : List EmoteRecord :=
  es.filterMap (fun e =>
    match e.data with
    | .val d => some d
    | _ => none)

/-- Lines 15-25: fetch one channel's emotes; any failure yields `[]`. -/
def fetch_7tv_emotes_by_twitch_id (oracle : String → FetchOutcome)
    (twitch_id : String) : List EmoteRecord :=
  match oracle twitch_id with
  | .failure => []
  | .success es => extractEmotes es

/-- Lines 28-38: fetch the global emote set; any failure yields `[]`. -/
def fetch_7tv_global_emotes (oracle : FetchOutcome) : List EmoteRecord :=
  match oracle with
  | .failure => []
  | .success es => extractEmotes es

/-- Python `s.split(sep)` for a one-character separator, on character lists;
as in Python, splitting the empty string yields one empty token. -/
def splitOnChar (sep : Char) : List Char → List (List Char)
  | [] => [[]]
  | c :: cs =>
    let rest := splitOnChar sep cs
    if c = sep then [] :: rest
    else
      match rest with
      | [] => [[c]]
      | t :: ts => (c :: t) :: ts

/-- Python `s.strip()`: drop leading and trailing whitespace (the whitespace
characters observable in identifiers are modelled by `Char.isWhitespace`). -/
def pyStrip (s : String) : String :=
  ⟨((s.data.dropWhile Char.isWhitespace).reverse.dropWhile Char.isWhitespace).reverse⟩

/-- Line 54: split the `twitch_id` parameter on commas, strip whitespace,
drop empty tokens. -/
def parseTwitchIds (twitch_id : Option String) : List String :=
  (((splitOnChar ',' (twitch_id.getD "").data).map (fun l => String.mk l)).map pyStrip).filter
    (fun t => t ≠ "")

/-- Lines 54-61: pick global source when the identifier list is empty or
exactly `["0"]`; otherwise fetch per identifier in order and concatenate. -/
def aggregate (oracleId : String → FetchOutcome) (oracleGlobal : FetchOutcome)
    (twitch_id : Option String) : List EmoteRecord :=
  let twitch_ids := parseTwitchIds twitch_id
  if twitch_ids = [] ∨ twitch_ids = ["0"] then
    fetch_7tv_global_emotes oracleGlobal
  else
    twitch_ids.flatMap (fetch_7tv_emotes_by_twitch_id oracleId)

/-!
Embedding of CPython `difflib.SequenceMatcher(None, a, b).ratio()`, the
similarity metric used at line 69. `ratio` is `2 * M / (len a + len b)`
(or `1.0` when both are empty), where `M` is the total size of the matching
blocks found by recursively applying `find_longest_match`.

`find_longest_match(alo, ahi, blo, bhi)`:
- the inner dynamic program (`j2len`) computes, for every in-window pair
  `(i, j)`, the length of the longest matching chain ending at `(i, j)` that
  runs only through positions of `b` holding non-"popular" characters
  (`chainLen` below computes exactly that chain length); scanning pairs in
  lexicographic order and updating only on a strictly larger chain keeps the
  first maximal chain (`bestLoop`);
- the result block is then greedily extended to the left and to the right
  while characters match (`extendLeft`, `extendRight`); the two junk-specific
  extension loops never run because the matcher is created with no junk
  predicate, so its junk set is empty;
- "popular" characters (the autojunk heuristic) are those occurring more than
  `len b / 100 + 1` times when `len b ≥ 200`; they are dropped from `b2j`, so
  chains never pass through them in `b`.
-/

/-- Python `str.lower`, per character (ASCII case mapping), as a char list. -/
def pyLowerChars (s : String) : List Char := s.data.map Char.toLower

/-- The autojunk "popular" test of `SequenceMatcher.__chain_b`: with
`n = len b ≥ 200`, characters occurring more than `n / 100 + 1` times. -/
def isPopular (b : List Char) (c : Char) : Bool :=
  decide (200 ≤ b.length) && decide (b.length / 100 + 1 < b.count c)

/-- Whether position pair `(i, j)` can be part of a matching chain: both
in range (and not left of the window start), equal characters, and the
`b`-character not dropped from `b2j` by the autojunk heuristic. -/
def chainCond (a b : List Char) (alo blo i j : Nat) : Bool :=
  decide (alo ≤ i) && decide (blo ≤ j) &&
  decide (i < a.length) && decide (j < b.length) &&
  decide (a.getD i ' ' = b.getD j ' ') && !(isPopular b (b.getD j ' '))

/-- Length of the longest matching chain ending at `(i, j)` (the value
`j2len[j]` after row `i` of the `find_longest_match` dynamic program). -/
def chainLen (a b : List Char) (alo blo : Nat) : Nat → Nat → Nat
  | 0, j => if chainCond a b alo blo 0 j then 1 else 0
  | i + 1, 0 => if chainCond a b alo blo (i + 1) 0 then 1 else 0
  | i + 1, j + 1 =>
    if chainCond a b alo blo (i + 1) (j + 1) then chainLen a b alo blo i j + 1 else 0

/-- All in-window position pairs in the scan order of the dynamic program:
`i` ascending (outer loop over `a`), `j` ascending (inner loop over `b2j`). -/
def scanPairs (alo ahi blo bhi : Nat) : List (Nat × Nat) :=
  (List.range' alo (ahi - alo)).flatMap
    (fun i => (List.range' blo (bhi - blo)).map (fun j => (i, j)))

/-- The `besti, bestj, bestsize` accumulation of `find_longest_match`: a pair
whose ending chain is strictly longer than the current best replaces it. -/
def bestLoop (a b : List Char) (alo blo : Nat) :
    List (Nat × Nat) → Nat × Nat × Nat → Nat × Nat × Nat
  | [], best => best
  | (i, j) :: rest, best =>
    let k := chainLen a b alo blo i j
    bestLoop a b alo blo rest (if best.2.2 < k then (i + 1 - k, j + 1 - k, k) else best)

/-- The left extension loop of `find_longest_match`: while `besti > alo`,
`bestj > blo` and the characters before the block match, grow leftwards. -/
def extendLeft (a b : List Char) (alo blo : Nat) : Nat → Nat → Nat → Nat × Nat × Nat
  | bi + 1, bj + 1, bs =>
    if alo ≤ bi ∧ blo ≤ bj ∧ a.getD bi ' ' = b.getD bj ' ' then
      extendLeft a b alo blo bi bj (bs + 1)
    else (bi + 1, bj + 1, bs)
  | 0, bj, bs => (0, bj, bs)
  | bi + 1, 0, bs => (bi + 1, 0, bs)

/-- The right extension loop of `find_longest_match`: while the block ends
before `ahi`/`bhi` and the characters after it match, grow rightwards (the
iteration count is bounded by `ahi`, passed as fuel). -/
def extendRight (a b : List Char) (ahi bhi bi bj : Nat) : Nat → Nat → Nat
  | 0, bs => bs
  | fuel + 1, bs =>
    if bi + bs < ahi ∧ bj + bs < bhi ∧ a.getD (bi + bs) ' ' = b.getD (bj + bs) ' ' then
      extendRight a b ahi bhi bi bj fuel (bs + 1)
    else bs

/-- `find_longest_match(alo, ahi, blo, bhi)`: best chain over the window in
scan order, then left and right extension. -/
def findLongestMatch (a b : List Char) (alo ahi blo bhi : Nat) : Nat × Nat × Nat :=
  let core := bestLoop a b alo blo (scanPairs alo ahi blo bhi) (alo, blo, 0)
  let ext := extendLeft a b alo blo core.1 core.2.1 core.2.2
  (ext.1, ext.2.1, extendRight a b ahi bhi ext.1 ext.2.1 ahi ext.2.2)

/-- Total size of the matching blocks of `get_matching_blocks` over a window:
take the longest match and recurse on the two flanking windows. Structural
fuel makes the definition computable; every source-reachable call decreases
the window size, so the initial fuel in `matchesTotal` is never exhausted. -/
def matchesFuel (a b : List Char) : Nat → Nat → Nat → Nat → Nat → Nat
  | 0, _, _, _, _ => 0
  | fuel + 1, alo, ahi, blo, bhi =>
    let m := findLongestMatch a b alo ahi blo bhi
    if m.2.2 = 0 then 0
    else
      m.2.2 + matchesFuel a b fuel alo m.1 blo m.2.1 +
        matchesFuel a b fuel (m.1 + m.2.2) ahi (m.2.1 + m.2.2) bhi

/-- The `matches` quantity of `SequenceMatcher.ratio`: total matching-block
size over the full strings. -/
def matchesTotal (a b : List Char) : Nat :=
  matchesFuel a b (a.length + b.length + 1) 0 a.length 0 b.length

/-- `SequenceMatcher.ratio()` = `_calculate_ratio(M, la + lb)`: `1.0` when
both sequences are empty, else `2 * M / (la + lb)` (modelled exactly in ℚ). -/
def simRatio (a b : List Char) : ℚ :=
  if a.length + b.length = 0 then 1
  else (2 * matchesTotal a b : ℚ) / ((a.length : ℚ) + (b.length : ℚ))

/-- Lines 68-69: `_score(candidate)` — similarity of the lowercased candidate
(first argument `a`) against the lowercased query (second argument `b`). -/
def pyScore (query : String) (candidate : String) : ℚ :=
  simRatio (pyLowerChars candidate) (pyLowerChars query)

/-- Line 73: the sort key reads the record name with `e.get("name", "")`. -/
def scoreKey (query : String) (r : EmoteRecord) : ℚ :=
  pyScore query (r.name.getD "")

/-- Lines 66-75: when a non-empty `name` query is present, stable-sort by
descending score (Python `sorted(..., reverse=True)` keeps ties in their
original relative order, as `mergeSort` with a ≥-comparison does). -/
def rank (name : Option String) (records : List EmoteRecord) : List EmoteRecord :=
  match name with
  | none => records
  | some q =>
    if q = "" then records
    else records.mergeSort (fun x y => decide (scoreKey q y ≤ scoreKey q x))

/-- Lines 77-79: `if limit: all_emotes = all_emotes[:limit]` (a present but
zero limit is falsy in Python and applies no truncation). -/
def applyLimit (limit : Option Nat) (l : List EmoteRecord) : List EmoteRecord :=
  match limit with
  | some n => if n ≠ 0 then l.take n else l
  | none => l

/-- Lines 63-117: the post-aggregation pipeline — empty-aggregate early
return, ranking, truncation, then the normalization loop. -/
def processEmotes (all_emotes : List EmoteRecord) (name : Option String)
    (limit : Option Nat) : Except PyErr SearchResponse :=
  if all_emotes = [] then .ok { results := [] }
  else
    match normalizeAll (applyLimit limit (rank name all_emotes)) with
    | .error e => .error e
    | .ok rs => .ok { results := rs }

/-- Lines 41-117: the full request handler over the two fetch oracles. -/
def search_7tv_emotes (oracleId : String → FetchOutcome) (oracleGlobal : FetchOutcome)
    (name twitch_id : Option String) (limit : Option Nat) : Except PyErr SearchResponse :=
  processEmotes (aggregate oracleId oracleGlobal twitch_id) name limit

/-- The invariant "the best block lies inside the window". -/
def GoodBest (alo ahi blo bhi : Nat) (t : Nat × Nat × Nat) : Prop :=
  alo ≤ t.1 ∧ t.1 + t.2.2 ≤ ahi ∧ blo ≤ t.2.1 ∧ t.2.1 + t.2.2 ≤ bhi

/-! Concrete fixtures used by counterexamples and witnesses. -/

/-- A record whose `files` list is present but empty (unrenderable). -/
def recNoFiles : EmoteRecord :=
  { name := some "Top", host := .val { url := some "//cdn/x", files := .val [] },
    flags := some 0, owner := .absent }

/-- A renderable record with a single webp file and no `owner` key. -/
def recGood : EmoteRecord :=
  { name := some "Next", host := .val { url := some "//cdn/y", files := .val [⟨"1x.webp"⟩] },
    flags := some 0, owner := .absent }

/-- The output produced for `recGood`. -/
def outGood : OutputRecord :=
  { name := some "Next", url := "https://cdn/y/1x.webp", owner := "unknown", is_overlay := false }

/-- A renderable record whose `owner` key is present with value null. -/
def recNullOwner : EmoteRecord :=
  { name := some "Bad", host := .val { url := some "//cdn/z", files := .val [⟨"1x.gif"⟩] },
    flags := some 0, owner := .null }

/-- A renderable record lacking the `name` key. -/
def recNoName : EmoteRecord :=
  { name := none, host := .val { url := some "//cdn/w", files := .val [⟨"1x.gif"⟩] },
    flags := some 257, owner := .val ⟨some "alice"⟩ }

/-- A renderable overlay record with a gif variant and a named owner. -/
def recG2 : EmoteRecord :=
  { name := some "Pog",
    host := .val { url := some "//cdn/p", files := .val [⟨"1x.avif"⟩, ⟨"2x.gif"⟩] },
    flags := some 256, owner := .val ⟨some "bob"⟩ }

/-- The output produced for `recG2`. -/
def outG2 : OutputRecord :=
  { name := some "Pog", url := "https://cdn/p/2x.gif", owner := "bob", is_overlay := true }

/-- A record whose `host` key is present with value null. -/
def recNoHost : EmoteRecord :=
  { name := some "NH", host := .null, flags := none, owner := .absent }

/-- A record whose `host.files` key is present with value null. -/
def recNullFiles : EmoteRecord :=
  { name := some "NF", host := .val { url := some "//cdn/q", files := .null },
    flags := some 0, owner := .absent }

/-- An oracle where source `"111"` succeeds with two records and every other
source (including `"222"`) fails. -/
def oracleC8 : String → FetchOutcome := fun t =>
  if t = "111" then .success [⟨.val recGood⟩, ⟨.val recG2⟩] else .failure

/-! Basic facts about the normalization stage. -/

theorem selectFile_nil : selectFile [] = none := rfl

/-- A non-empty file list always yields a variant (the last full-list name is
the final fallback). -/
theorem selectFile_isSome (files : List FileEntry) (h : files ≠ []) :
    ∃ c, selectFile files = some c := by
  unfold selectFile
  by_cases hg : (files.map FileEntry.name).filter (fun n => pyEndsWith n ".gif") ≠ []
  · rw [if_pos hg]
    exact Option.isSome_iff_exists.mp (List.getLast?_isSome.mpr hg)
  · by_cases hw : (files.map FileEntry.name).filter (fun n => pyEndsWith n ".webp") ≠ []
    · rw [if_neg hg, if_pos hw]
      exact Option.isSome_iff_exists.mp (List.getLast?_isSome.mpr hw)
    · rw [if_neg hg, if_neg hw]
      exact Option.isSome_iff_exists.mp
        (List.getLast?_isSome.mpr (by simpa using h))

/-- A record whose (defaulted) file list is empty is skipped. -/
theorem normalizeRecord_noFiles (r : EmoteRecord) (h : getFiles (getHost r) = []) :
    normalizeRecord r = .ok none := by
  unfold normalizeRecord
  simp [h]

/-- The only exception the loop body can raise comes from a present-but-null
`owner`; any other record normalizes successfully (kept or skipped). -/
theorem normalizeRecord_ok (r : EmoteRecord) (h : r.owner ≠ .null) :
    ∃ o, normalizeRecord r = .ok o := by
  unfold normalizeRecord
  by_cases hf : getFiles (getHost r) = []
  · exact ⟨none, by simp [hf]⟩
  · obtain ⟨c, hc⟩ := selectFile_isSome _ hf
    have how : ∃ w, resolveOwner r = .ok w := by
      unfold resolveOwner
      cases hro : r.owner with
      | absent => exact ⟨"unknown", rfl⟩
      | null => exact absurd hro h
      | val o => exact ⟨o.username.getD "unknown", rfl⟩
    obtain ⟨w, hw⟩ := how
    refine ⟨some { name := r.name,
                   url := "https:" ++ pyStrOpt (getHost r).url ++ "/" ++ c,
                   owner := w, is_overlay := (r.flags.getD 0).land 256 != 0 }, ?_⟩
    simp only [if_neg hf, hc, hw]

/-- A request whose surviving records never carry a null `owner` completes
the loop without raising. -/
theorem normalizeAll_ok (rs : List EmoteRecord) (h : ∀ r ∈ rs, r.owner ≠ .null) :
    ∃ os, normalizeAll rs = .ok os := by
  induction rs with
  | nil => exact ⟨[], rfl⟩
  | cons r rs ih =>
    obtain ⟨o, ho⟩ := normalizeRecord_ok r (h r (by simp))
    obtain ⟨os, hos⟩ := ih (fun x hx => h x (by simp [hx]))
    cases o with
    | none => exact ⟨os, by simp [normalizeAll, ho, hos]⟩
    | some v => exact ⟨v :: os, by simp [normalizeAll, ho, hos]⟩

/-! Window bounds for `find_longest_match` and the matching-block total: the
returned block lies inside the requested window, hence the block sizes over a
window sum to at most each of the window's side lengths. -/

/-- A non-trivial chain ending at `(i, j)` starts no earlier than
`(alo, blo)` and ends inside the sequences. -/
theorem chainLen_bounds (a b : List Char) (alo blo : Nat) :
    ∀ i j, chainLen a b alo blo i j ≠ 0 →
      chainLen a b alo blo i j + alo ≤ i + 1 ∧ chainLen a b alo blo i j + blo ≤ j + 1 := by
  intro i
  induction i with
  | zero =>
    intro j hne
    rw [chainLen] at hne ⊢
    by_cases hc : chainCond a b alo blo 0 j = true
    · simp only [hc, if_true]
      simp only [chainCond, Bool.and_eq_true, decide_eq_true_eq] at hc
      omega
    · simp [hc] at hne
  | succ i ih =>
    intro j hne
    cases j with
    | zero =>
      rw [chainLen] at hne ⊢
      by_cases hc : chainCond a b alo blo (i + 1) 0 = true
      · simp only [hc, if_true]
        simp only [chainCond, Bool.and_eq_true, decide_eq_true_eq] at hc
        omega
      · simp [hc] at hne
    | succ j =>
      rw [chainLen] at hne ⊢
      by_cases hc : chainCond a b alo blo (i + 1) (j + 1) = true
      · simp only [hc, if_true]
        simp only [chainCond, Bool.and_eq_true, decide_eq_true_eq] at hc
        by_cases hz : chainLen a b alo blo i j = 0
        · rw [hz]; omega
        · have := ih j hz
          omega
      · simp [hc] at hne


theorem mem_scanPairs {alo ahi blo bhi : Nat} {p : Nat × Nat}
    (h : p ∈ scanPairs alo ahi blo bhi) :
    alo ≤ p.1 ∧ p.1 < ahi ∧ blo ≤ p.2 ∧ p.2 < bhi := by
  simp only [scanPairs, List.mem_flatMap, List.mem_map, List.mem_range'] at h
  obtain ⟨i, ⟨di, hdi, hi⟩, j, ⟨dj, hdj, hj⟩, hp⟩ := h
  subst hp
  omega

theorem bestLoop_bounds (a b : List Char) (alo ahi blo bhi : Nat) :
    ∀ (l : List (Nat × Nat)) (t : Nat × Nat × Nat),
      (∀ p ∈ l, alo ≤ p.1 ∧ p.1 < ahi ∧ blo ≤ p.2 ∧ p.2 < bhi) →
      GoodBest alo ahi blo bhi t →
      GoodBest alo ahi blo bhi (bestLoop a b alo blo l t) := by
  intro l
  induction l with
  | nil => intro t _ ht; exact ht
  | cons p rest ih =>
    intro t hl ht
    obtain ⟨i, j⟩ := p
    rw [bestLoop]
    apply ih _ (fun q hq => hl q (by simp [hq]))
    by_cases hup : t.2.2 < chainLen a b alo blo i j
    · rw [if_pos hup]
      have hk : chainLen a b alo blo i j ≠ 0 := by omega
      have hb := chainLen_bounds a b alo blo i j hk
      have hij := hl (i, j) (by simp)
      simp only [GoodBest]
      simp only at hij
      omega
    · rw [if_neg hup]; exact ht

theorem extendLeft_bounds (a b : List Char) (alo ahi blo bhi : Nat) :
    ∀ bi bj bs, alo ≤ bi → blo ≤ bj → bi + bs ≤ ahi → bj + bs ≤ bhi →
      GoodBest alo ahi blo bhi (extendLeft a b alo blo bi bj bs) := by
  intro bi
  induction bi with
  | zero =>
    intro bj bs h1 h2 h3 h4
    rw [extendLeft.eq_def]
    exact ⟨h1, h3, h2, h4⟩
  | succ bi ih =>
    intro bj bs h1 h2 h3 h4
    cases bj with
    | zero =>
      rw [extendLeft]
      exact ⟨h1, h3, h2, h4⟩
    | succ bj =>
      rw [extendLeft]
      by_cases hc : alo ≤ bi ∧ blo ≤ bj ∧ a.getD bi ' ' = b.getD bj ' '
      · rw [if_pos hc]
        exact ih bj (bs + 1) hc.1 hc.2.1 (by omega) (by omega)
      · rw [if_neg hc]
        exact ⟨h1, h3, h2, h4⟩

theorem extendRight_bounds (a b : List Char) (ahi bhi bi bj : Nat) :
    ∀ fuel bs, bi + bs ≤ ahi → bj + bs ≤ bhi →
      bi + extendRight a b ahi bhi bi bj fuel bs ≤ ahi ∧
      bj + extendRight a b ahi bhi bi bj fuel bs ≤ bhi := by
  intro fuel
  induction fuel with
  | zero => intro bs h1 h2; rw [extendRight]; exact ⟨h1, h2⟩
  | succ fuel ih =>
    intro bs h1 h2
    rw [extendRight]
    by_cases hc : bi + bs < ahi ∧ bj + bs < bhi ∧ a.getD (bi + bs) ' ' = b.getD (bj + bs) ' '
    · rw [if_pos hc]
      exact ih (bs + 1) (by omega) (by omega)
    · rw [if_neg hc]
      exact ⟨h1, h2⟩

theorem findLongestMatch_bounds (a b : List Char) (alo ahi blo bhi : Nat)
    (h1 : alo ≤ ahi) (h2 : blo ≤ bhi) :
    GoodBest alo ahi blo bhi (findLongestMatch a b alo ahi blo bhi) := by
  have hcore : GoodBest alo ahi blo bhi
      (bestLoop a b alo blo (scanPairs alo ahi blo bhi) (alo, blo, 0)) :=
    bestLoop_bounds a b alo ahi blo bhi _ _ (fun p hp => mem_scanPairs hp)
      ⟨Nat.le_refl _, by simpa using h1, Nat.le_refl _, by simpa using h2⟩
  rw [findLongestMatch]
  obtain ⟨g1, g2, g3, g4⟩ := hcore
  have hext := extendLeft_bounds a b alo ahi blo bhi _ _ _ g1 g3 g2 g4
  obtain ⟨e1, e2, e3, e4⟩ := hext
  have hr := extendRight_bounds a b ahi bhi _ _ ahi _ e2 e4
  exact ⟨e1, hr.1, e3, hr.2⟩

/-- Over a window, the total size of the recursively collected matching
blocks is at most each of the window's side lengths. -/
theorem matchesFuel_le (a b : List Char) :
    ∀ (fuel alo ahi blo bhi : Nat), alo ≤ ahi → blo ≤ bhi →
      matchesFuel a b fuel alo ahi blo bhi + alo ≤ ahi ∧
      matchesFuel a b fuel alo ahi blo bhi + blo ≤ bhi := by
  intro fuel
  induction fuel with
  | zero => intro alo ahi blo bhi h1 h2; rw [matchesFuel]; omega
  | succ fuel ih =>
    intro alo ahi blo bhi h1 h2
    rw [matchesFuel]
    have hb := findLongestMatch_bounds a b alo ahi blo bhi h1 h2
    obtain ⟨g1, g2, g3, g4⟩ := hb
    by_cases hz : (findLongestMatch a b alo ahi blo bhi).2.2 = 0
    · rw [if_pos hz]; omega
    · rw [if_neg hz]
      have hl := ih alo (findLongestMatch a b alo ahi blo bhi).1 blo
        (findLongestMatch a b alo ahi blo bhi).2.1 g1 g3
      have hr := ih ((findLongestMatch a b alo ahi blo bhi).1 +
          (findLongestMatch a b alo ahi blo bhi).2.2) ahi
        ((findLongestMatch a b alo ahi blo bhi).2.1 +
          (findLongestMatch a b alo ahi blo bhi).2.2) bhi g2 g4
      omega

theorem matchesTotal_le (a b : List Char) :
    matchesTotal a b ≤ a.length ∧ matchesTotal a b ≤ b.length := by
  have := matchesFuel_le a b (a.length + b.length + 1) 0 a.length 0 b.length
    (Nat.zero_le _) (Nat.zero_le _)
  rw [matchesTotal]
  omega

/-- The similarity ratio always lies in `[0, 1]`. -/
theorem simRatio_bounds (a b : List Char) : 0 ≤ simRatio a b ∧ simRatio a b ≤ 1 := by
  rw [simRatio]
  by_cases hz : a.length + b.length = 0
  · rw [if_pos hz]; norm_num
  · rw [if_neg hz]
    have hM := matchesTotal_le a b
    have hden : (0 : ℚ) < (a.length : ℚ) + (b.length : ℚ) := by
      have : 0 < a.length + b.length := Nat.pos_of_ne_zero hz
      exact_mod_cast by exact_mod_cast this
    constructor
    · positivity
    · rw [div_le_one hden]
      have : (matchesTotal a b : ℚ) ≤ a.length := by exact_mod_cast hM.1
      have : (matchesTotal a b : ℚ) ≤ b.length := by exact_mod_cast hM.2
      linarith

/-! When the two sequences are equal, `find_longest_match` over the full
window returns the whole string, so the ratio is exactly `1`.

Key facts: for equal sequences a chain ending at `(i, j)` is dominated by the
diagonal chains ending at `(i, i)` and `(j, j)`; since the scan visits pairs
in lexicographic order and a diagonal partner of any pair is scanned no later
than the pair itself, the strictly-greater update rule only ever fires on
diagonal pairs, so the best block is diagonal; the extension loops then grow
any diagonal block to the full string. -/

theorem chainCond_self (s : List Char) {i j : Nat}
    (h : chainCond s s 0 0 i j = true) :
    chainCond s s 0 0 i i = true ∧ chainCond s s 0 0 j j = true := by
  simp only [chainCond, Bool.and_eq_true, decide_eq_true_eq, Bool.not_eq_true',
    Nat.zero_le, decide_True, Bool.true_and] at h ⊢
  obtain ⟨⟨⟨hi, hj⟩, heq⟩, hpop⟩ := h
  have hpi : isPopular s (s.getD i ' ') = false := by rw [heq]; exact hpop
  exact ⟨⟨⟨⟨hi, hi⟩, trivial⟩, hpi⟩, ⟨⟨hj, hj⟩, trivial⟩, hpop⟩

theorem chainLen_le_diag_left (s : List Char) :
    ∀ i j, chainLen s s 0 0 i j ≤ chainLen s s 0 0 i i := by
  intro i
  induction i with
  | zero =>
    intro j
    rw [chainLen, chainLen]
    by_cases hc : chainCond s s 0 0 0 j = true
    · rw [if_pos hc, if_pos (chainCond_self s hc).1]
    · rw [if_neg hc]; exact Nat.zero_le _
  | succ i ih =>
    intro j
    cases j with
    | zero =>
      rw [chainLen, chainLen]
      by_cases hc : chainCond s s 0 0 (i + 1) 0 = true
      · rw [if_pos hc, if_pos (chainCond_self s hc).1]; omega
      · rw [if_neg hc]; exact Nat.zero_le _
    | succ j =>
      rw [chainLen, chainLen]
      by_cases hc : chainCond s s 0 0 (i + 1) (j + 1) = true
      · rw [if_pos hc, if_pos (chainCond_self s hc).1]
        exact Nat.succ_le_succ (ih j)
      · rw [if_neg hc]; exact Nat.zero_le _

theorem chainLen_le_diag_right (s : List Char) :
    ∀ i j, chainLen s s 0 0 i j ≤ chainLen s s 0 0 j j := by
  intro i
  induction i with
  | zero =>
    intro j
    rw [chainLen]
    by_cases hc : chainCond s s 0 0 0 j = true
    · rw [if_pos hc]
      have hj := (chainCond_self s hc).2
      cases j with
      | zero => rw [chainLen, if_pos hj]
      | succ j => rw [chainLen, if_pos hj]; omega
    · rw [if_neg hc]; exact Nat.zero_le _
  | succ i ih =>
    intro j
    cases j with
    | zero =>
      conv_lhs => rw [chainLen]
      by_cases hc : chainCond s s 0 0 (i + 1) 0 = true
      · rw [if_pos hc, chainLen, if_pos (chainCond_self s hc).2]
      · rw [if_neg hc]; exact Nat.zero_le _
    | succ j =>
      conv_lhs => rw [chainLen]
      by_cases hc : chainCond s s 0 0 (i + 1) (j + 1) = true
      · rw [if_pos hc]
        conv_rhs => rw [chainLen]
        rw [if_pos (chainCond_self s hc).2]
        exact Nat.succ_le_succ (ih j)
      · rw [if_neg hc]; exact Nat.zero_le _

theorem bestLoop_append (a b : List Char) (alo blo : Nat) :
    ∀ (l1 l2 : List (Nat × Nat)) (t : Nat × Nat × Nat),
      bestLoop a b alo blo (l1 ++ l2) t = bestLoop a b alo blo l2 (bestLoop a b alo blo l1 t) := by
  intro l1
  induction l1 with
  | nil => intro l2 t; rfl
  | cons p rest ih =>
    intro l2 t
    obtain ⟨i, j⟩ := p
    rw [List.cons_append, bestLoop, bestLoop]
    exact ih l2 _

/-- Scanning one row of the window `[0, n) × [0, n)` for equal sequences from
a diagonal state that dominates all previously scanned chains keeps the state
diagonal and dominating. -/
theorem bestRow_self (s : List Char) (i : Nat) :
    ∀ (len j0 bi bs : Nat),
      (∀ j', j' < j0 → chainLen s s 0 0 i j' ≤ bs) →
      (∀ d, d < i → chainLen s s 0 0 d d ≤ bs) →
      ∃ bi' bs',
        bestLoop s s 0 0 ((List.range' j0 len).map (fun j => (i, j))) (bi, bi, bs) =
          (bi', bi', bs') ∧
        bs ≤ bs' ∧
        (∀ j', j' < j0 + len → chainLen s s 0 0 i j' ≤ bs') ∧
        (∀ d, d < i → chainLen s s 0 0 d d ≤ bs') := by
  intro len
  induction len with
  | zero =>
    intro j0 bi bs hrow hprev
    exact ⟨bi, bs, rfl, Nat.le_refl _, fun j' hj' => hrow j' (by omega), hprev⟩
  | succ len ih =>
    intro j0 bi bs hrow hprev
    rw [List.range'_succ, List.map_cons, bestLoop]
    by_cases hup : (bi, bi, bs).2.2 < chainLen s s 0 0 i j0
    · have hij : i = j0 := by
        by_contra hne
        rcases Nat.lt_or_ge i j0 with hlt | hge
        · have h1 := chainLen_le_diag_left s i j0
          have h2 := hrow i hlt
          simp only at hup
          omega
        · have hlt : j0 < i := by omega
          have h1 := chainLen_le_diag_right s i j0
          have h2 := hprev j0 hlt
          simp only at hup
          omega
      subst hij
      rw [if_pos hup]
      simp only at hup
      obtain ⟨bi', bs', heq, hle, hrow', hprev'⟩ :=
        ih (i + 1) (i + 1 - chainLen s s 0 0 i i) (chainLen s s 0 0 i i)
          (fun j' hj' => by
            rcases Nat.lt_or_ge j' i with h | h
            · exact Nat.le_trans (hrow j' h) (Nat.le_of_lt hup)
            · have : j' = i := by omega
              subst this
              exact Nat.le_refl _)
          (fun d hd => Nat.le_trans (hprev d hd) (Nat.le_of_lt hup))
      exact ⟨bi', bs', heq, Nat.le_trans (Nat.le_of_lt hup) hle,
        fun j' hj' => hrow' j' (by omega), hprev'⟩
    · rw [if_neg hup]
      simp only at hup
      obtain ⟨bi', bs', heq, hle, hrow', hprev'⟩ :=
        ih (j0 + 1) bi bs
          (fun j' hj' => by
            rcases Nat.lt_or_ge j' j0 with h | h
            · exact hrow j' h
            · have : j' = j0 := by omega
              subst this
              omega)
          hprev
      exact ⟨bi', bs', heq, hle, fun j' hj' => hrow' j' (by omega), hprev'⟩

/-- Scanning whole rows of the square window for equal sequences keeps the
best-block state diagonal. -/
theorem bestAll_self (s : List Char) (n : Nat) :
    ∀ (rows i0 bi bs : Nat), i0 + rows ≤ n →
      (∀ d, d < i0 → chainLen s s 0 0 d d ≤ bs) →
      ∃ bi' bs',
        bestLoop s s 0 0
          ((List.range' i0 rows).flatMap
            (fun i => (List.range' 0 n).map (fun j => (i, j)))) (bi, bi, bs) =
          (bi', bi', bs') := by
  intro rows
  induction rows with
  | zero =>
    intro i0 bi bs _ _
    exact ⟨bi, bs, rfl⟩
  | succ rows ih =>
    intro i0 bi bs hn hprev
    rw [List.range'_succ, List.flatMap_cons, bestLoop_append]
    obtain ⟨bi1, bs1, heq1, hle1, hrow1, hprev1⟩ :=
      bestRow_self s i0 n 0 bi bs (fun j' hj' => by omega) hprev
    rw [heq1]
    exact ih (i0 + 1) bi1 bs1 (by omega)
      (fun d hd => by
        rcases Nat.lt_or_ge d i0 with h | h
        · exact hprev1 d h
        · have : d = i0 := by omega
          subst this
          exact hrow1 d (by omega))

/-- For equal sequences the core scan returns a diagonal block. -/
theorem bestLoop_scan_self (s : List Char) :
    ∃ d K, bestLoop s s 0 0 (scanPairs 0 s.length 0 s.length) (0, 0, 0) = (d, d, K) := by
  have h := bestAll_self s s.length s.length 0 0 0 (by omega) (fun d hd => by omega)
  obtain ⟨bi', bs', heq⟩ := h
  refine ⟨bi', bs', ?_⟩
  rw [scanPairs]
  simpa using heq

/-- Left extension of a diagonal block over equal sequences (full window)
runs all the way to the start. -/
theorem extendLeft_diag (s : List Char) :
    ∀ d bs, extendLeft s s 0 0 d d bs = (0, 0, bs + d) := by
  intro d
  induction d with
  | zero => intro bs; rfl
  | succ d ih =>
    intro bs
    rw [extendLeft, if_pos ⟨Nat.zero_le _, Nat.zero_le _, rfl⟩, ih]
    have h : bs + 1 + d = bs + (d + 1) := by omega
    rw [h]

/-- Right extension from the window start over equal sequences reaches the
window end (given enough fuel). -/
theorem extendRight_self_diag (s : List Char) (n : Nat) :
    ∀ fuel bs, n ≤ bs + fuel → bs ≤ n → extendRight s s n n 0 0 fuel bs = n := by
  intro fuel
  induction fuel with
  | zero =>
    intro bs h1 h2
    rw [extendRight]
    omega
  | succ fuel ih =>
    intro bs h1 h2
    rcases Nat.lt_or_ge bs n with hlt | hge
    · rw [extendRight, if_pos ⟨by omega, by omega, rfl⟩]
      exact ih (bs + 1) (by omega) (by omega)
    · rw [extendRight, if_neg (by omega)]
      omega

theorem findLongestMatch_self (s : List Char) :
    findLongestMatch s s 0 s.length 0 s.length = (0, 0, s.length) := by
  obtain ⟨d, K, hcore⟩ := bestLoop_scan_self s
  have hgood : GoodBest 0 s.length 0 s.length (d, d, K) := by
    rw [← hcore]
    exact bestLoop_bounds s s 0 s.length 0 s.length _ _ (fun p hp => mem_scanPairs hp)
      ⟨Nat.le_refl _, by simp, Nat.le_refl _, by simp⟩
  have hdK : d + K ≤ s.length := hgood.2.1
  rw [findLongestMatch, hcore]
  simp only [extendLeft_diag s d K]
  rw [extendRight_self_diag s s.length s.length (K + d) (by omega) (by omega)]

theorem extendLeft_self_start (a b : List Char) (alo blo bs : Nat) :
    extendLeft a b alo blo alo blo bs = (alo, blo, bs) := by
  cases alo with
  | zero => rfl
  | succ alo =>
    cases blo with
    | zero => rfl
    | succ blo => rw [extendLeft, if_neg (by omega)]

theorem extendRight_stuck (a b : List Char) (ahi bhi bi bj : Nat) :
    ∀ fuel bs, ¬ bi + bs < ahi → extendRight a b ahi bhi bi bj fuel bs = bs := by
  intro fuel bs h
  cases fuel with
  | zero => rfl
  | succ fuel => rw [extendRight, if_neg (by intro hc; exact h hc.1)]

/-- An empty window contributes no matches. -/
theorem matchesFuel_empty (a b : List Char) :
    ∀ fuel alo blo, matchesFuel a b fuel alo alo blo blo = 0 := by
  intro fuel alo blo
  cases fuel with
  | zero => rfl
  | succ fuel =>
    rw [matchesFuel]
    have hscan : scanPairs alo alo blo blo = [] := by
      rw [scanPairs]
      simp
    have hm : findLongestMatch a b alo alo blo blo = (alo, blo, 0) := by
      rw [findLongestMatch, hscan]
      simp only [bestLoop, extendLeft_self_start]
      rw [extendRight_stuck a b alo blo alo blo alo 0 (by omega)]
    rw [hm]
    simp

theorem matchesTotal_self (s : List Char) : matchesTotal s s = s.length := by
  simp only [matchesTotal, matchesFuel, findLongestMatch_self, Nat.zero_add]
  by_cases hz : s.length = 0
  · simp [hz]
  · rw [if_neg hz]
    have h1 := matchesFuel_empty s s (s.length + s.length) 0 0
    have h2 := matchesFuel_empty s s (s.length + s.length) s.length s.length
    omega

theorem simRatio_self (s : List Char) : simRatio s s = 1 := by
  rw [simRatio]
  by_cases hz : s.length + s.length = 0
  · rw [if_pos hz]
  · rw [if_neg hz, matchesTotal_self]
    have hne : ((s.length : ℚ) + (s.length : ℚ)) ≠ 0 := by
      have : s.length ≠ 0 := by omega
      positivity
    field_simp
    ring

/-- Two records whose lowercased names coincide with the lowercased query
score exactly 1. -/
theorem pyScore_self (q c : String) (h : pyLowerChars c = pyLowerChars q) :
    pyScore q c = 1 := by
  rw [pyScore, h]
  exact simRatio_self _

/-! Properties of the ranking comparison. -/

theorem scoreLe_trans (q : String) (x y z : EmoteRecord)
    (h1 : decide (scoreKey q y ≤ scoreKey q x) = true)
    (h2 : decide (scoreKey q z ≤ scoreKey q y) = true) :
    decide (scoreKey q z ≤ scoreKey q x) = true := by
  simp only [decide_eq_true_eq] at h1 h2 ⊢
  exact le_trans h2 h1

theorem scoreLe_total (q : String) (x y : EmoteRecord) :
    (decide (scoreKey q y ≤ scoreKey q x) || decide (scoreKey q x ≤ scoreKey q y)) = true := by
  simp only [Bool.or_eq_true, decide_eq_true_eq]
  exact le_total _ _

/-- Membership is preserved through ranking. -/
theorem mem_rank (name : Option String) (rs : List EmoteRecord) (x : EmoteRecord)
    (h : x ∈ rank name rs) : x ∈ rs := by
  cases name with
  | none => exact h
  | some q =>
    by_cases hq : q = ""
    · simpa [rank, hq] using h
    · rw [rank, if_neg hq] at h
      exact List.mem_mergeSort.mp h

/-- Membership is preserved through truncation. -/
theorem mem_applyLimit (limit : Option Nat) (l : List EmoteRecord) (x : EmoteRecord)
    (h : x ∈ applyLimit limit l) : x ∈ l := by
  cases limit with
  | none => exact h
  | some n =>
    rw [applyLimit] at h
    by_cases hn : n ≠ 0
    · rw [if_pos hn] at h
      exact List.mem_of_mem_take h
    · rwa [if_neg hn] at h


/-- C3: for every non-empty ordered file list the Variant Selector picks a
variant: the last name ending in `.gif` if any exists, otherwise the last
name ending in `.webp` if any exists, otherwise the last name of the full
list; on `["1x.avif","2x.avif","1x.gif","2x.gif","1x.webp"]` it picks
`"2x.gif"`; for an empty file list no variant is selected and the record is
excluded from the output. -/
theorem c3_claim (files : List FileEntry) (h : files ≠ []) :
    (∃ c, selectFile files = some c) ∧
    ((files.map FileEntry.name).filter (fun n => pyEndsWith n ".gif") ≠ [] →
      selectFile files =
        ((files.map FileEntry.name).filter (fun n => pyEndsWith n ".gif")).getLast?) ∧
    ((files.map FileEntry.name).filter (fun n => pyEndsWith n ".gif") = [] →
      (files.map FileEntry.name).filter (fun n => pyEndsWith n ".webp") ≠ [] →
      selectFile files =
        ((files.map FileEntry.name).filter (fun n => pyEndsWith n ".webp")).getLast?) ∧
    ((files.map FileEntry.name).filter (fun n => pyEndsWith n ".gif") = [] →
      (files.map FileEntry.name).filter (fun n => pyEndsWith n ".webp") = [] →
      selectFile files = (files.map FileEntry.name).getLast?) ∧
    selectFile [⟨"1x.avif"⟩, ⟨"2x.avif"⟩, ⟨"1x.gif"⟩, ⟨"2x.gif"⟩, ⟨"1x.webp"⟩] = some "2x.gif" ∧
    selectFile [] = none ∧
    (∀ r : EmoteRecord, getFiles (getHost r) = [] → normalizeRecord r = .ok none) := by
  refine ⟨selectFile_isSome files h, ?_, ?_, ?_, by decide, rfl,
    fun r hr => normalizeRecord_noFiles r hr⟩
  · intro hg
    simp only [selectFile]
    rw [if_pos hg]
  · intro hg hw
    simp only [selectFile]
    rw [if_neg (fun hc => hc hg), if_pos hw]
  · intro hg hw
    simp only [selectFile]
    rw [if_neg (fun hc => hc hg), if_neg (fun hc => hc hw)]

/-- C3 witness at the spec's example list. -/
theorem c3_witness :
    ([⟨"1x.avif"⟩, ⟨"2x.avif"⟩, ⟨"1x.gif"⟩, ⟨"2x.gif"⟩, (⟨"1x.webp"⟩ : FileEntry)] ≠ []) ∧
    (∃ c, selectFile [⟨"1x.avif"⟩, ⟨"2x.avif"⟩, ⟨"1x.gif"⟩, ⟨"2x.gif"⟩, ⟨"1x.webp"⟩] = some c) :=
  ⟨by decide,
    (c3_claim [⟨"1x.avif"⟩, ⟨"2x.avif"⟩, ⟨"1x.gif"⟩, ⟨"2x.gif"⟩, ⟨"1x.webp"⟩] (by decide)).1⟩

/-- C4: with the identifier list parsed by trimming comma-separated tokens
and dropping empty ones, an empty list or exactly `["0"]` uses the global
source; any other list fetches per identifier in input order, concatenating
the per-source results, and the global source is never consulted (the result
does not depend on the global oracle); in particular `"0,0"` parses to
`["0","0"]`, which is served per-channel. -/
theorem c4_claim (oracleId : String → FetchOutcome) (og og' : FetchOutcome)
    (tid : Option String) :
    (parseTwitchIds tid = [] ∨ parseTwitchIds tid = ["0"] →
      aggregate oracleId og tid = fetch_7tv_global_emotes og) ∧
    (¬(parseTwitchIds tid = [] ∨ parseTwitchIds tid = ["0"]) →
      aggregate oracleId og tid =
        (parseTwitchIds tid).flatMap (fetch_7tv_emotes_by_twitch_id oracleId) ∧
      aggregate oracleId og tid = aggregate oracleId og' tid) ∧
    parseTwitchIds (some "0,0") = ["0", "0"] := by
  refine ⟨?_, ?_, by decide⟩
  · intro hc
    simp only [aggregate]
    rw [if_pos hc]
  · intro hc
    simp only [aggregate]
    rw [if_neg hc, if_neg hc]
    exact ⟨rfl, rfl⟩

/-- C4 witness: `"0,0"` is served per-channel, independently of the global
oracle. -/
theorem c4_witness :
    aggregate oracleC8 .failure (some "0,0") =
      (parseTwitchIds (some "0,0")).flatMap (fetch_7tv_emotes_by_twitch_id oracleC8) ∧
    aggregate oracleC8 .failure (some "0,0") =
      aggregate oracleC8 (.success [⟨.val recGood⟩]) (some "0,0") :=
  (c4_claim oracleC8 .failure (.success [⟨.val recGood⟩]) (some "0,0")).2.1 (by decide)

/-- C6: ranking with an absent or empty query performs no scoring and
returns the aggregated list unchanged. -/
theorem c6_claim (rs : List EmoteRecord) :
    rank none rs = rs ∧ rank (some "") rs = rs :=
  ⟨rfl, by rw [rank, if_pos rfl]⟩

/-- C7: ranking is idempotent — ranking an already ranked list with the same
query yields the same order. -/
theorem c7_claim (q : Option String) (rs : List EmoteRecord) :
    rank q (rank q rs) = rank q rs := by
  cases q with
  | none => rfl
  | some s =>
    by_cases hs : s = ""
    · simp only [rank, if_pos hs]
    · simp only [rank, if_neg hs]
      exact List.mergeSort_of_sorted
        (List.sorted_mergeSort (fun a b c => scoreLe_trans s a b c)
          (fun a b => scoreLe_total s a b) rs)

/-- C9: a present-but-null `owner` key makes owner resolution raise an
`AttributeError` (aborting normalization of a renderable record), while the
sentinel `"unknown"` is produced exactly when the key is absent or the owner
object lacks a `username`; a present username is passed through. -/
theorem c9_claim (r : EmoteRecord) :
    (r.owner = .null → resolveOwner r = .error .attributeError) ∧
    (r.owner = .absent → resolveOwner r = .ok "unknown") ∧
    (∀ o : OwnerInfo, r.owner = .val o → o.username = none → resolveOwner r = .ok "unknown") ∧
    (∀ (o : OwnerInfo) (u : String), r.owner = .val o → o.username = some u →
      resolveOwner r = .ok u) ∧
    (r.owner = .null → getFiles (getHost r) ≠ [] →
      normalizeRecord r = .error .attributeError) := by
  refine ⟨fun h => by rw [resolveOwner, h], fun h => by rw [resolveOwner, h],
    fun o ho hu => by simp [resolveOwner, ho, hu],
    fun o u ho hu => by simp [resolveOwner, ho, hu], fun hn hf => ?_⟩
  obtain ⟨c, hc⟩ := selectFile_isSome _ hf
  simp only [normalizeRecord]
  rw [if_neg hf, hc, resolveOwner, hn]

/-- C9 witness at a concrete renderable record with a null owner (and the
`"unknown"` sentinel at an absent owner). -/
theorem c9_witness :
    resolveOwner recNullOwner = .error .attributeError ∧
    normalizeRecord recNullOwner = .error .attributeError ∧
    resolveOwner recGood = .ok "unknown" :=
  ⟨(c9_claim recNullOwner).1 rfl,
    (c9_claim recNullOwner).2.2.2.2 rfl (by decide),
    (c9_claim recGood).2.1 rfl⟩

/-- C10: a record lacking the `name` key is scored as the empty string, but
when it survives variant selection the emitted output record carries a null
`name` (no default applied at output). -/
theorem c10_claim (q : String) (r : EmoteRecord) (h : r.name = none) :
    scoreKey q r = pyScore q "" ∧
    (∀ out : OutputRecord, normalizeRecord r = .ok (some out) → out.name = none) := by
  constructor
  · simp [scoreKey, h]
  · intro out hout
    simp only [normalizeRecord] at hout
    by_cases hf : getFiles (getHost r) = []
    · rw [if_pos hf] at hout
      simp at hout
    · rw [if_neg hf] at hout
      cases hsel : selectFile (getFiles (getHost r)) with
      | none => rw [hsel] at hout; simp at hout
      | some c =>
        rw [hsel] at hout
        cases how : resolveOwner r with
        | error e => rw [how] at hout; simp at hout
        | ok w =>
          rw [how] at hout
          simp only [Except.ok.injEq, Option.some.injEq] at hout
          rw [← hout]
          exact h

/-- C10 witness at a concrete nameless renderable record. -/
theorem c10_witness :
    scoreKey "Kappa" recNoName = pyScore "Kappa" "" ∧
    (∀ out : OutputRecord, normalizeRecord recNoName = .ok (some out) → out.name = none) :=
  c10_claim "Kappa" recNoName rfl

/-- C5: with a non-empty query, each record's score is the
sequence-matching similarity `2 * matches / (len a + len b)` of its
lowercased name (empty if absent) against the lowercased query; every score
lies in `[0, 1]`; a name that equals the query after lowercasing scores
exactly `1`; and the records are sorted by descending score, stably — each
score class keeps its relative aggregation order. -/
theorem c5_claim (q : String) (rs : List EmoteRecord) (hq : q ≠ "") :
    List.Pairwise (fun x y => scoreKey q y ≤ scoreKey q x) (rank (some q) rs) ∧
    (rank (some q) rs).Perm rs ∧
    (∀ sc : ℚ, (rank (some q) rs).filter (fun r => decide (scoreKey q r = sc)) =
      rs.filter (fun r => decide (scoreKey q r = sc))) ∧
    (∀ c : String, pyScore q c =
      2 * (matchesTotal (pyLowerChars c) (pyLowerChars q) : ℚ) /
        (((pyLowerChars c).length : ℚ) + ((pyLowerChars q).length : ℚ))) ∧
    (∀ r : EmoteRecord, 0 ≤ scoreKey q r ∧ scoreKey q r ≤ 1) ∧
    (∀ c : String, pyLowerChars c = pyLowerChars q → pyScore q c = 1) := by
  have hrank : rank (some q) rs =
      rs.mergeSort (fun x y => decide (scoreKey q y ≤ scoreKey q x)) := by
    rw [rank, if_neg hq]
  have hlb : (pyLowerChars q).length ≠ 0 := by
    rw [pyLowerChars, List.length_map]
    intro hlen
    apply hq
    cases q with
    | mk d =>
      cases d with
      | nil => rfl
      | cons c cs => simp at hlen
  refine ⟨?_, ?_, ?_, ?_, ?_, ?_⟩
  · rw [hrank]
    exact (List.sorted_mergeSort (fun a b c => scoreLe_trans q a b c)
      (fun a b => scoreLe_total q a b) rs).imp (fun h => of_decide_eq_true h)
  · rw [hrank]
    exact List.mergeSort_perm rs _
  · intro sc
    rw [hrank]
    have hpair : (rs.filter (fun r => decide (scoreKey q r = sc))).Pairwise
        (fun x y => (decide (scoreKey q y ≤ scoreKey q x)) = true) := by
      apply List.pairwise_of_forall_mem_list
      intro a ha b hb
      have ha' : scoreKey q a = sc := by simpa using List.of_mem_filter ha
      have hb' : scoreKey q b = sc := by simpa using List.of_mem_filter hb
      simp only [decide_eq_true_eq]
      rw [ha', hb']
    have hsub :=
      List.sublist_mergeSort (fun a b c => scoreLe_trans q a b c)
        (fun a b => scoreLe_total q a b) hpair (List.filter_sublist rs)
    have hsub2 := hsub.filter (fun r => decide (scoreKey q r = sc))
    rw [List.filter_filter] at hsub2
    simp only [Bool.and_self] at hsub2
    have hlen : ((rs.mergeSort (fun x y => decide (scoreKey q y ≤ scoreKey q x))).filter
        (fun r => decide (scoreKey q r = sc))).length =
        (rs.filter (fun r => decide (scoreKey q r = sc))).length :=
      ((List.mergeSort_perm rs _).filter _).length_eq
    exact (hsub2.eq_of_length hlen.symm).symm
  · intro c
    rw [pyScore, simRatio, if_neg (by omega)]
  · intro r
    exact simRatio_bounds _ _
  · intro c hc
    exact pyScore_self q c hc

/-- C5 witness at the query `"Kappa"` over two concrete records. -/
theorem c5_witness :
    ("Kappa" ≠ "") ∧
    ((rank (some "Kappa") [recGood, recG2]).Perm [recGood, recG2] ∧
      ∀ r : EmoteRecord, 0 ≤ scoreKey "Kappa" r ∧ scoreKey "Kappa" r ≤ 1) :=
  ⟨by decide,
    (c5_claim "Kappa" [recGood, recG2] (by decide)).2.1,
    (c5_claim "Kappa" [recGood, recG2] (by decide)).2.2.2.2.1⟩

/-- C8: a failing source contributes an empty list without raising; with two
requested identifiers where the second fails, aggregation returns exactly the
first source's records; and the whole request still succeeds, returning the
normalization of the surviving records. -/
theorem c8_claim :
    (∀ (oracle : String → FetchOutcome) (tid : String), oracle tid = .failure →
      fetch_7tv_emotes_by_twitch_id oracle tid = []) ∧
    (∀ (oracle : String → FetchOutcome) (og : FetchOutcome) (tid : Option String)
      (t1 t2 : String), parseTwitchIds tid = [t1, t2] → oracle t2 = .failure →
      aggregate oracle og tid = fetch_7tv_emotes_by_twitch_id oracle t1) ∧
    (∀ (oracle : String → FetchOutcome) (og : FetchOutcome) (tid : Option String)
      (t1 t2 : String) (outs : List OutputRecord),
      parseTwitchIds tid = [t1, t2] → oracle t2 = .failure →
      normalizeAll (fetch_7tv_emotes_by_twitch_id oracle t1) = .ok outs →
      search_7tv_emotes oracle og none tid none = .ok { results := outs }) := by
  have part1 : ∀ (oracle : String → FetchOutcome) (tid : String), oracle tid = .failure →
      fetch_7tv_emotes_by_twitch_id oracle tid = [] := by
    intro oracle tid h
    rw [fetch_7tv_emotes_by_twitch_id, h]
  have part2 : ∀ (oracle : String → FetchOutcome) (og : FetchOutcome) (tid : Option String)
      (t1 t2 : String), parseTwitchIds tid = [t1, t2] → oracle t2 = .failure →
      aggregate oracle og tid = fetch_7tv_emotes_by_twitch_id oracle t1 := by
    intro oracle og tid t1 t2 hp hf
    simp only [aggregate, hp]
    rw [if_neg (by simp)]
    simp [part1 oracle t2 hf]
  refine ⟨part1, part2, ?_⟩
  intro oracle og tid t1 t2 outs hp hf houts
  rw [search_7tv_emotes, part2 oracle og tid t1 t2 hp hf, processEmotes]
  by_cases hem : fetch_7tv_emotes_by_twitch_id oracle t1 = []
  · rw [if_pos hem]
    rw [hem] at houts
    simp only [normalizeAll] at houts
    simp only [Except.ok.injEq] at houts
    rw [← houts]
  · rw [if_neg hem]
    have : applyLimit none (rank none (fetch_7tv_emotes_by_twitch_id oracle t1)) =
        fetch_7tv_emotes_by_twitch_id oracle t1 := rfl
    rw [this, houts]

/-- C8 witness: identifiers `"111,222"` where `"222"` times out and `"111"`
serves two records — the request succeeds with exactly those two records. -/
theorem c8_witness :
    fetch_7tv_emotes_by_twitch_id oracleC8 "222" = [] ∧
    aggregate oracleC8 .failure (some "111,222") =
      fetch_7tv_emotes_by_twitch_id oracleC8 "111" ∧
    search_7tv_emotes oracleC8 .failure none (some "111,222") none =
      .ok { results := [outGood, outG2] } :=
  ⟨c8_claim.1 oracleC8 "222" rfl,
    c8_claim.2.1 oracleC8 .failure (some "111,222") "111" "222" (by decide) rfl,
    c8_claim.2.2 oracleC8 .failure (some "111,222") "111" "222" [outGood, outG2]
      (by decide) rfl rfl⟩

/-- C1 counterexample: with `limit = 1` and an unrenderable top record
followed by a renderable one, the response is empty — the unrenderable
record consumed the cap slot, so the next renderable record does NOT fill
the cap, contradicting the claim that records with no selectable variant are
not counted against the limit. -/
theorem c1_counterexample :
    processEmotes [recNoFiles, recGood] none (some 1) = .ok { results := [] } ∧
    normalizeRecord recGood = .ok (some outGood) :=
  ⟨rfl, rfl⟩

/-- C1 (amended): truncation to the first `limit` entries happens after
ranking but BEFORE variant selection; records with no selectable variant are
dropped from the already-truncated list (so they do count against the
limit), and the output is exactly the renderable records among the `limit`
top-ranked entries. -/
theorem c1_claim (rs : List EmoteRecord) (name : Option String) (l : Nat)
    (hrs : rs ≠ []) (hl : l ≠ 0) :
    processEmotes rs name (some l) =
      (match normalizeAll ((rank name rs).take l) with
        | .error e => .error e
        | .ok os => .ok { results := os }) ∧
    (∀ r : EmoteRecord, selectFile (getFiles (getHost r)) = none →
      normalizeRecord r = .ok none) := by
  constructor
  · rw [processEmotes, if_neg hrs, applyLimit, if_pos hl]
  · intro r hsel
    by_cases hf : getFiles (getHost r) = []
    · exact normalizeRecord_noFiles r hf
    · simp only [normalizeRecord]
      rw [if_neg hf, hsel]

/-- C1 witness at the counterexample's input. -/
theorem c1_witness :
    processEmotes [recNoFiles, recGood] none (some 1) =
      (match normalizeAll ((rank none [recNoFiles, recGood]).take 1) with
        | .error e => .error e
        | .ok os => .ok { results := os }) ∧
    (∀ r : EmoteRecord, selectFile (getFiles (getHost r)) = none →
      normalizeRecord r = .ok none) :=
  c1_claim [recNoFiles, recGood] none 1 (by decide) (by decide)

/-- C2 counterexample: a single record whose `owner` key is present with
value null — a record "whose nested fields are null" — does not get dropped
individually: the whole request raises instead of returning a success
response. -/
theorem c2_counterexample :
    processEmotes [recNullOwner] none none = .error .attributeError :=
  rfl

/-- C2 (amended): a record missing `data`, `host` or `files`, or whose
`data`, `host` or `files` field is null, is dropped individually — and the
request returns a success response with a (possibly empty) results array
provided no aggregated record carries a present-but-null `owner` key (such a
record raises instead, failing the whole request). -/
theorem c2_claim :
    (∀ (pre post : List RawEmote) (e : RawEmote), e.data = .absent ∨ e.data = .null →
      extractEmotes (pre ++ e :: post) = extractEmotes (pre ++ post)) ∧
    (∀ r : EmoteRecord, r.host = .absent ∨ r.host = .null → normalizeRecord r = .ok none) ∧
    (∀ (r : EmoteRecord) (h : HostInfo), r.host = .val h →
      h.files = .absent ∨ h.files = .null → normalizeRecord r = .ok none) ∧
    (∀ (rs : List EmoteRecord) (name : Option String) (limit : Option Nat),
      (∀ r ∈ rs, r.owner ≠ .null) →
      ∃ resp : SearchResponse, processEmotes rs name limit = .ok resp) := by
  refine ⟨?_, ?_, ?_, ?_⟩
  · intro pre post e he
    simp only [extractEmotes, List.filterMap_append, List.filterMap_cons]
    rcases he with he | he <;> rw [he]
  · intro r hr
    apply normalizeRecord_noFiles
    rcases hr with h | h <;> simp [getHost, getFiles, h]
  · intro r h hr hf
    apply normalizeRecord_noFiles
    rcases hf with hf | hf <;> simp [getHost, getFiles, hr, hf]
  · intro rs name limit h
    obtain ⟨os, hos⟩ := normalizeAll_ok (applyLimit limit (rank name rs))
      (fun r hr => h r (mem_rank name rs r (mem_applyLimit limit _ r hr)))
    by_cases hem : rs = []
    · exact ⟨{ results := [] }, by rw [processEmotes, if_pos hem]⟩
    · exact ⟨{ results := os }, by rw [processEmotes, if_neg hem, hos]⟩

/-- C2 witness: a data-less raw entry, a null host, null files, and a clean
list all behave as the amended claim states. -/
theorem c2_witness :
    extractEmotes [⟨.val recGood⟩, ⟨.absent⟩] = extractEmotes [⟨.val recGood⟩] ∧
    normalizeRecord recNoHost = .ok none ∧
    normalizeRecord recNullFiles = .ok none ∧
    (∃ resp : SearchResponse, processEmotes [recNoHost, recGood] none none = .ok resp) :=
  ⟨c2_claim.1 [⟨.val recGood⟩] [] ⟨.absent⟩ (Or.inl rfl),
    c2_claim.2.1 recNoHost (Or.inr rfl),
    c2_claim.2.2.1 recNullFiles _ rfl (Or.inr rfl),
    c2_claim.2.2.2 [recNoHost, recGood] none none (by decide)⟩

